/-
Verification development for the chunked file-upload component
(`FileUpload` in `file-upload.ts`, IndexedDB variant).

The component splits each accepted file into fixed 256 KiB chunks, saves
every chunk to an IndexedDB object store `chunks`, tracks per-file progress
in a `PreviewFile` record kept in one of two partitions (`images` /
`videos`), and offers removal / bulk-removal / metadata-export operations.

The shallow embedding below mirrors the TypeScript source:
  * `PreviewFile`, `FileChunk`   — the two data records of the component;
  * `IDB`                        — the IndexedDB state: the `chunks` store
                                   contents plus whether an index named
                                   `fileId` exists on that store (the
                                   `onupgradeneeded` handler in `openDB`
                                   only calls `createObjectStore`, it never
                                   calls `createIndex`, so the opened
                                   database has no such index);
  * `saveChunk`                  — the upsert-by-composite-key `put`;
  * `clearChunksByFileId`        — the cursor-delete over `store.index("fileId")`,
                                   which in IndexedDB throws `NotFoundError`
                                   when that index does not exist;
  * `processNextChunk`           — the sequential recursive chunk processor
                                   (slice, read, put, progress update, next),
                                   instrumented with an event trace and with
                                   the successive record snapshots; an
                                   `oracle` says which chunk steps fail
                                   (read or storage rejection), modelling the
                                   `catch` branch;
  * `handleFiles` / `ingestFile` — per-file ingestion: id allocation, object
                                   URL registration, totalChunks computation,
                                   placeholder insertion, pipeline start;
  * `removePreview`, `removeAll`, `uploadAll`, `storageKey` — the lifecycle
                                   and export operations.

JavaScript numeric operations are modelled exactly over ℚ / ℤ / ℕ:
`Math.ceil` as `Int.ceil`, `Math.round` as `fun q => ⌊q + 1/2⌋`.
The explicit `fuel` argument of `processNextChunk` is the standard
termination device for embedding the recursive callback chain; every run in
this file supplies `fuel ≥ totalChunks`, which the lemmas show is enough for
the exhaustion branch never to be taken.
-/
import Mathlib

set_option linter.unusedVariables false

/-- Bytes of a file, each in `[0, 256)`; the byte values themselves are
never inspected by the component, only sliced. -/
abbrev FileBytes := List ℕ

/-- `const chunkSize = 1024 * 256; // 256 KB` -/
def chunkSize : ℕ := 1024 * 256

/-- JavaScript `Math.round` on an exact rational: round half up. -/
def jsRound (q : ℚ) : ℤ := ⌊q + 1 / 2⌋

/-- JavaScript `Math.ceil` on an exact rational. -/
def mathCeil (q : ℚ) : ℤ := ⌈q⌉

/-- `const totalChunks = Math.ceil(file.size / chunkSize);` -/
def totalChunksOf (size : ℕ) : ℕ := (mathCeil ((size : ℚ) / (chunkSize : ℚ))).toNat

/-- IndexedDB record of one stored chunk (`interface FileChunk`). -/
structure FileChunk where
  fileId : ℕ
  chunkIndex : ℕ
  totalChunks : ℕ
  data : FileBytes
deriving DecidableEq

/-- Preview metadata record (`interface PreviewFile`). -/
structure PreviewFile where
  id : ℕ
  fileName : String
  size : ℕ
  url : Option String
  objectUrl : Option String
  loading : Bool
  progress : ℤ
  totalChunks : Option ℕ
deriving DecidableEq

/-- State of the `FileUploadDB` IndexedDB database: the contents of the
`chunks` object store, plus whether an index named `fileId` exists on it. -/
structure IDB where
  hasFileIdIndex : Bool
  chunks : List FileChunk
deriving DecidableEq

/-- Errors surfaced by the storage layer.  `notFound` is the DOMException
thrown by `IDBObjectStore.index(name)` when no index named `name` exists. -/
inductive StorageErr where
  | notFound
  | txError
deriving DecidableEq

/-- Database produced by `openDB`: the `onupgradeneeded` handler runs
`db.createObjectStore("chunks", { keyPath: ["fileId", "chunkIndex"] })` and
nothing else — in particular it never calls `createIndex`, so the opened
database carries no `fileId` index and an empty `chunks` store. -/
def openedDB : IDB := { hasFileIdIndex := false, chunks := [] }

/-- Composite-key equality used by the IndexedDB `put` upsert
(keyPath `["fileId", "chunkIndex"]`). -/
def sameKey (a b : FileChunk) : Bool :=
  a.fileId == b.fileId && a.chunkIndex == b.chunkIndex

/-- `saveChunk`: `tx.objectStore("chunks").put(chunk)` — upsert by the
composite primary key. -/
def saveChunk (c : FileChunk) (db : IDB) : IDB :=
  if db.chunks.any (sameKey c) then
    { db with chunks := db.chunks.map fun k => if sameKey c k then c else k }
  else
    { db with chunks := db.chunks ++ [c] }

/-- `clearChunksByFileId`: opens a cursor on `store.index("fileId")` over
`IDBKeyRange.only(fileId)` and deletes every record it visits.  When the
database has no index named `fileId`, `store.index("fileId")` throws a
`NotFoundError` DOMException inside the promise executor, so the returned
promise rejects. -/
def clearChunksByFileId (fileId : ℕ) (db : IDB) : Except StorageErr IDB :=
  if db.hasFileIdIndex then
    Except.ok { db with chunks := db.chunks.filter fun c => c.fileId ≠ fileId }
  else
    Except.error StorageErr.notFound

/-- The two preview partitions (`'image' | 'video'`). -/
inductive MediaType where
  | image
  | video
deriving DecidableEq

/-- `storageKey(type)`. -/
def storageKey : MediaType → String
  | MediaType.image => "uploaded_images"
  | MediaType.video => "uploaded_videos"

/-- Component state: the two partitions and the monotonic id counter. -/
structure CompState where
  images : List PreviewFile
  videos : List PreviewFile
  idCounter : ℕ
deriving DecidableEq

/-- The list a partition tag denotes. -/
def CompState.partition (st : CompState) : MediaType → List PreviewFile
  | MediaType.image => st.images
  | MediaType.video => st.videos

/-- `if (type === "image") this.images.push(placeholder); else this.videos.push(placeholder);` -/
def CompState.push (ty : MediaType) (r : PreviewFile) (st : CompState) : CompState :=
  match ty with
  | MediaType.image => { st with images := st.images ++ [r] }
  | MediaType.video => { st with videos := st.videos ++ [r] }

/-- Observable events of one file's ingestion pipeline, in the order they
happen on the event loop.  `prog`/`done`/`err` carry the record's progress
and loading values right after the corresponding mutation. -/
inductive Ev where
  | put (c : FileChunk)
  | prog (percent : ℤ) (loading : Bool)
  | done (percent : ℤ) (loading : Bool)
  | err (percent : ℤ) (loading : Bool)
deriving DecidableEq

/-- The slice taken for chunk `i`:
`start = i * chunkSize; end = Math.min(start + chunkSize, file.size); file.slice(start, end)`. -/
def chunkData (bytes : FileBytes) (i : ℕ) : FileBytes :=
  let start := i * chunkSize
  let stop := min (start + chunkSize) bytes.length
  (bytes.drop start).take (stop - start)

/-- The `FileChunk` record `saveChunk` receives for chunk `i`. -/
def chunkRec (bytes : FileBytes) (id tot i : ℕ) : FileChunk :=
  { fileId := id, chunkIndex := i, totalChunks := tot, data := chunkData bytes i }

/-- `const percent = Math.round((currentChunk / totalChunks) * 100);`
(evaluated after `currentChunk++`, so `k` is the number of committed chunks). -/
def pct (tot k : ℕ) : ℤ := jsRound (((k : ℚ) / (tot : ℚ)) * 100)

/-- The recursive chunk processor `processNextChunk`.  Arguments after the
pipeline constants: remaining fuel, `currentChunk`, the live `placeholder`
record, and the database.  Returns the final record, the final database,
the event trace, and the successive record snapshots (one per mutation).
`oracle cur = true` means the awaited `blob.arrayBuffer()` or `saveChunk`
for chunk `cur` rejects, taking the `catch` branch. -/
def processNextChunk (oracle : ℕ → Bool) (bytes : FileBytes) (id tot : ℕ) :
    ℕ → ℕ → PreviewFile → IDB → PreviewFile × IDB × List Ev × List PreviewFile
  | fuel, cur, ph, db =>
    if tot ≤ cur then
      -- `if (currentChunk >= totalChunks) { placeholder.loading = false; placeholder.progress = 100; return; }`
      let phF := { ph with loading := false, progress := 100 }
      (phF, db, [Ev.done 100 false], [phF])
    else
      match fuel with
      | 0 => (ph, db, [], [])
      | fuel' + 1 =>
        let data := chunkData bytes cur
        if oracle cur then
          -- `catch (error) { ... placeholder.loading = false; ... }`
          let phF := { ph with loading := false }
          (phF, db, [Ev.err phF.progress false], [phF])
        else
          let chunk : FileChunk :=
            { fileId := id, chunkIndex := cur, totalChunks := tot, data := data }
          let db' := saveChunk chunk db
          let percent := pct tot (cur + 1)
          let ph' := { ph with progress := percent }
          let r := processNextChunk oracle bytes id tot fuel' (cur + 1) ph' db'
          (r.1, r.2.1, Ev.put chunk :: Ev.prog percent ph'.loading :: r.2.2.1,
            ph' :: r.2.2.2)

/-- The placeholder `handleFiles` pushes synchronously for one file. -/
def initialRecord (url name : String) (bytes : FileBytes) (id : ℕ) : PreviewFile :=
  { id := id, fileName := name, size := bytes.length, url := some url,
    objectUrl := some url, loading := true, progress := 0,
    totalChunks := some (totalChunksOf bytes.length) }

/-- Ingestion of a single file inside `handleFiles`: compute `totalChunks`,
build the placeholder, and run the chunk pipeline to quiescence
(fuel `totalChunks` covers every chunk). -/
def ingestFile (oracle : ℕ → Bool) (url name : String) (bytes : FileBytes)
    (id : ℕ) (db : IDB) : PreviewFile × IDB × List Ev × List PreviewFile :=
  let tot := totalChunksOf bytes.length
  processNextChunk oracle bytes id tot tot 0 (initialRecord url name bytes id) db

/-- `handleFiles(files, type)`: for each file allocate `++idCounter`, create
the object URL, push the placeholder into the partition, and drive its chunk
pipeline.  `oracle j i` tells whether chunk `i` of the `j`-th file fails;
`urls j` is the object URL created for the `j`-th file.  The partition ends
up holding each file's record in its final (quiescent) state. -/
def handleFiles (oracle : ℕ → ℕ → Bool) (urls : ℕ → String) (ty : MediaType) :
    List (String × FileBytes) → CompState → IDB → CompState × IDB
  | [], st, db => (st, db)
  | f :: fs, st, db =>
    let id := st.idCounter + 1
    let r := ingestFile (oracle 0) (urls 0) f.1 f.2 id db
    handleFiles (fun j => oracle (j + 1)) (fun j => urls (j + 1)) ty fs
      (CompState.push ty r.1 { st with idCounter := id }) r.2.1

/-- Actions of a removal operation, in execution order. -/
inductive RAct where
  | clearChunks (fileId : ℕ) (ok : Bool)
  | revokeUrl (url : String)
  | removeRecord (id : ℕ)
deriving DecidableEq

/-- Result of `removePreview`: whether the returned promise resolved, the
component state and database afterwards, the revoked object URLs, and the
actions in the order they were performed. -/
structure RemoveOutcome where
  resolved : Bool
  st : CompState
  db : IDB
  revoked : List String
  actions : List RAct
deriving DecidableEq

/-- `removePreview(id, event)`: `await clearChunksByFileId(id)` first (a
rejection propagates and nothing further runs), then look the id up in
`images`, revoke its object URL and filter it out; otherwise the same on
`videos`; otherwise fall through. -/
def removePreview (id : ℕ) (st : CompState) (db : IDB) : RemoveOutcome :=
  match clearChunksByFileId id db with
  | Except.error _ => ⟨false, st, db, [], [RAct.clearChunks id false]⟩
  | Except.ok db' =>
    match st.images.find? (fun i => i.id == id) with
    | some it =>
      let revoked := match it.objectUrl with | some u => [u] | none => []
      ⟨true, { st with images := st.images.filter fun x => x.id != id }, db',
        revoked,
        RAct.clearChunks id true :: revoked.map RAct.revokeUrl ++ [RAct.removeRecord id]⟩
    | none =>
      match st.videos.find? (fun v => v.id == id) with
      | some it =>
        let revoked := match it.objectUrl with | some u => [u] | none => []
        ⟨true, { st with videos := st.videos.filter fun x => x.id != id }, db',
          revoked,
          RAct.clearChunks id true :: revoked.map RAct.revokeUrl ++ [RAct.removeRecord id]⟩
      | none => ⟨true, st, db', [], [RAct.clearChunks id true]⟩

/-- `removeAll(type)`: `items.forEach(async it => { await clearChunksByFileId(it.id); if (it.objectUrl) URL.revokeObjectURL(it.objectUrl); })`
— each per-item closure awaits the chunk cleanup and only reaches the
revocation when that await resolved; a rejection skips the revocation for
that item.  Afterwards the partition list is unconditionally replaced by
`[]`.  Returns the new state, the database, and the revoked URLs. -/
def removeAll (ty : MediaType) (st : CompState) (db : IDB) :
    CompState × IDB × List String :=
  let items := st.partition ty
  let folded := items.foldl
    (fun (acc : IDB × List String) it =>
      match clearChunksByFileId it.id acc.1 with
      | Except.error _ => acc
      | Except.ok db' =>
        (db', acc.2 ++ (match it.objectUrl with | some u => [u] | none => [])))
    (db, [])
  let st' := match ty with
    | MediaType.image => { st with images := [] }
    | MediaType.video => { st with videos := [] }
  (st', folded.1, folded.2)

/-- One entry of the manifest `uploadAll` serializes to localStorage. -/
structure ManifestEntry where
  id : ℕ
  name : String
  size : ℕ
  totalChunks : ℕ
  uploadedAt : ℕ
deriving DecidableEq

/-- Result of `uploadAll`: the localStorage write (key and manifest), the
file names warned about (`console.warn` on a chunk-count mismatch), and
whether the operation completed (it always does; mismatches are non-fatal). -/
structure UploadResult where
  wrote : Option (String × List ManifestEntry)
  warnings : List String
  ok : Bool
deriving DecidableEq

/-- `uploadAll(type)`: return immediately when the partition is empty;
otherwise write one manifest entry per record
(`{ id, name, size, totalChunks, uploadedAt: Date.now() }`) under
`storageKey(type)`, then for each record count the stored chunks with that
`fileId` (`getAll` then filter) and warn when the count differs from
`f.totalChunks || 0`.  `now` stands for `Date.now()`. -/
def uploadAll (ty : MediaType) (now : ℕ) (st : CompState) (db : IDB) : UploadResult :=
  let items := st.partition ty
  if items.isEmpty then ⟨none, [], true⟩
  else
    let metadata := items.map fun f =>
      ({ id := f.id, name := f.fileName, size := f.size,
         totalChunks := f.totalChunks.getD 0, uploadedAt := now } : ManifestEntry)
    let warnings := (items.filter fun f =>
      (db.chunks.filter fun c => c.fileId == f.id).length != f.totalChunks.getD 0).map
        fun f => f.fileName
    ⟨some (storageKey ty, metadata), warnings, true⟩

/-- The chunks sent to `saveChunk` in a trace, in trace order. -/
def putsOf (evs : List Ev) : List FileChunk :=
  evs.filterMap fun e => match e with | Ev.put c => some c | _ => none

/-! ### Arithmetic helper lemmas -/

lemma chunkSize_pos : 0 < chunkSize := by simp [chunkSize]

/-- `Math.ceil(S / 262144)` agrees with natural ceiling division. -/
lemma totalChunksOf_eq (S : ℕ) : totalChunksOf S = (S + (chunkSize - 1)) / chunkSize := by
  set t := (S + (chunkSize - 1)) / chunkSize with ht
  have h1 : S ≤ chunkSize * t := by rw [ht]; simp only [chunkSize]; omega
  have h2 : chunkSize * t < S + chunkSize := by rw [ht]; simp only [chunkSize]; omega
  have hc : (0 : ℚ) < (chunkSize : ℚ) := by exact_mod_cast chunkSize_pos
  have h1' : (S : ℚ) ≤ (chunkSize : ℚ) * (t : ℚ) := by exact_mod_cast h1
  have h2' : (chunkSize : ℚ) * (t : ℚ) < (S : ℚ) + (chunkSize : ℚ) := by exact_mod_cast h2
  have hceil : mathCeil ((S : ℚ) / (chunkSize : ℚ)) = (t : ℤ) := by
    rw [mathCeil, Int.ceil_eq_iff]
    constructor
    · rw [lt_div_iff₀ hc]
      push_cast
      nlinarith
    · rw [div_le_iff₀ hc]
      push_cast
      nlinarith
  rw [totalChunksOf, hceil, Int.toNat_natCast]

lemma jsRound_mono {a b : ℚ} (h : a ≤ b) : jsRound a ≤ jsRound b := by
  exact Int.floor_le_floor (by linarith)

lemma jsRound_hundred : jsRound 100 = 100 := by norm_num [jsRound]

lemma jsRound_zero : jsRound 0 = 0 := by norm_num [jsRound]

lemma jsRound_nonneg {a : ℚ} (h : 0 ≤ a) : 0 ≤ jsRound a := by
  have := jsRound_mono h
  rwa [jsRound_zero] at this

/-- The committed-chunk percentage is monotone in the number of committed chunks. -/
lemma pct_mono (tot k : ℕ) : pct tot k ≤ pct tot (k + 1) := by
  rcases Nat.eq_zero_or_pos tot with h | h
  · subst h; simp [pct]
  · apply jsRound_mono
    have htot : (0 : ℚ) < (tot : ℚ) := by exact_mod_cast h
    have hk : ((k : ℚ)) / (tot : ℚ) ≤ (((k + 1 : ℕ) : ℚ)) / (tot : ℚ) := by
      gcongr
      linarith
    nlinarith [hk]

lemma pct_nonneg (tot k : ℕ) : 0 ≤ pct tot k := by
  apply jsRound_nonneg
  positivity

/-- When every chunk has committed the percentage is exactly 100. -/
lemma pct_total (tot : ℕ) (h : 0 < tot) : pct tot tot = 100 := by
  have htot : (tot : ℚ) ≠ 0 := by exact_mod_cast h.ne.symm
  rw [pct, div_self htot, one_mul, jsRound_hundred]

/-- The percentage formula written as in the specification. -/
lemma pct_eq_spec (tot k : ℕ) : pct tot k = jsRound ((100 * (k : ℚ)) / (tot : ℚ)) := by
  rw [pct]
  congr 1
  ring

/-! ### Slicing lemmas -/

/-- The slice for chunk `i` is just `take chunkSize` after `drop (i * chunkSize)`:
the explicit `Math.min` end bound only matters past the end of the list,
where `take` truncates anyway. -/
lemma chunkData_eq_take (bytes : FileBytes) (i : ℕ) :
    chunkData bytes i = (bytes.drop (i * chunkSize)).take chunkSize := by
  simp only [chunkData]
  have harith : min (i * chunkSize + chunkSize) bytes.length - i * chunkSize
      = min chunkSize (bytes.length - i * chunkSize) := by omega
  rw [harith]
  rcases le_total chunkSize (bytes.length - i * chunkSize) with h | h
  · rw [min_eq_left h]
  · rw [min_eq_right h]
    rw [List.take_of_length_le (by simp), List.take_of_length_le (by simp [h])]

/-- Concatenating consecutive `take c` slices of a list recovers the list,
provided the slice count covers its length. -/
lemma flatten_take_slices (c : ℕ) :
    ∀ (tot : ℕ) (l : FileBytes), l.length ≤ tot * c →
      ((List.range tot).map fun i => (l.drop (i * c)).take c).flatten = l := by
  intro tot
  induction tot with
  | zero =>
    intro l hl
    simp only [Nat.zero_mul, Nat.le_zero, List.length_eq_zero] at hl
    simp [hl]
  | succ t ih =>
    intro l hl
    rw [List.range_succ_eq_map, List.map_cons, List.map_map, List.flatten_cons]
    have hmap : (List.range t).map ((fun i => (l.drop (i * c)).take c) ∘ Nat.succ)
        = (List.range t).map fun i => ((l.drop c).drop (i * c)).take c := by
      apply List.map_congr_left
      intro i _
      simp only [Function.comp]
      rw [List.drop_drop]
      have hstep : i.succ * c = c + i * c := by
        rw [Nat.succ_mul, Nat.add_comm]
      rw [hstep]
    have hl' : (l.drop c).length ≤ t * c := by
      rw [List.length_drop]
      have hl2 : l.length ≤ t * c + c := by
        calc l.length ≤ (t + 1) * c := hl
        _ = t * c + c := by ring
      exact Nat.sub_le_iff_le_add.mpr hl2
    rw [hmap, ih (l.drop c) hl']
    simp only [Nat.zero_mul, List.drop_zero]
    exact List.take_append_drop c l

/-- The file length is covered by `totalChunksOf` many chunks. -/
lemma length_le_totalChunks_mul (n : ℕ) : n ≤ totalChunksOf n * chunkSize := by
  rw [totalChunksOf_eq]
  simp only [chunkSize]
  omega

/-- Concatenating the chunk payloads in index order reproduces the file. -/
lemma flatten_chunkData (bytes : FileBytes) :
    ((List.range (totalChunksOf bytes.length)).map fun i => chunkData bytes i).flatten
      = bytes := by
  have h : ∀ i, chunkData bytes i = (bytes.drop (i * chunkSize)).take chunkSize :=
    chunkData_eq_take bytes
  simp only [h]
  exact flatten_take_slices chunkSize (totalChunksOf bytes.length) bytes
    (length_le_totalChunks_mul bytes.length)

/-! ### Closed forms for pipeline runs -/

/-- Database after the puts of chunks `cur, cur+1, …, cur+d-1`. -/
def putAll (bytes : FileBytes) (id tot cur d : ℕ) (db : IDB) : IDB :=
  (List.range' cur d).foldl (fun a i => saveChunk (chunkRec bytes id tot i) a) db

/-- Events of the successful steps for chunks `cur, …, cur+d-1`: each put is
immediately followed by its progress update, before the next put. -/
def stepEvents (bytes : FileBytes) (id tot : ℕ) (b : Bool) (cur d : ℕ) : List Ev :=
  ((List.range' cur d).map fun i =>
    [Ev.put (chunkRec bytes id tot i), Ev.prog (pct tot (i + 1)) b]).flatten

/-- Record snapshots after the successful steps for chunks `cur, …, cur+d-1`. -/
def stepSnaps (bytes : FileBytes) (id tot : ℕ) (ph : PreviewFile) (cur d : ℕ) :
    List PreviewFile :=
  (List.range' cur d).map fun i => { ph with progress := pct tot (i + 1) }

lemma putAll_zero (bytes : FileBytes) (id tot cur : ℕ) (db : IDB) :
    putAll bytes id tot cur 0 db = db := rfl

lemma putAll_succ (bytes : FileBytes) (id tot cur d : ℕ) (db : IDB) :
    putAll bytes id tot cur (d + 1) db
      = putAll bytes id tot (cur + 1) d (saveChunk (chunkRec bytes id tot cur) db) := by
  simp [putAll, List.range'_succ]

lemma stepEvents_zero (bytes : FileBytes) (id tot : ℕ) (b : Bool) (cur : ℕ) :
    stepEvents bytes id tot b cur 0 = [] := rfl

lemma stepEvents_succ (bytes : FileBytes) (id tot : ℕ) (b : Bool) (cur d : ℕ) :
    stepEvents bytes id tot b cur (d + 1)
      = Ev.put (chunkRec bytes id tot cur) :: Ev.prog (pct tot (cur + 1)) b ::
          stepEvents bytes id tot b (cur + 1) d := by
  simp [stepEvents, List.range'_succ]

lemma stepSnaps_zero (bytes : FileBytes) (id tot : ℕ) (ph : PreviewFile) (cur : ℕ) :
    stepSnaps bytes id tot ph cur 0 = [] := rfl

lemma stepSnaps_succ (bytes : FileBytes) (id tot : ℕ) (ph : PreviewFile) (cur d : ℕ) :
    stepSnaps bytes id tot ph cur (d + 1)
      = { ph with progress := pct tot (cur + 1) } ::
          stepSnaps bytes id tot ph (cur + 1) d := by
  simp [stepSnaps, List.range'_succ]

/-- Snapshots ignore the starting record's progress field. -/
lemma stepSnaps_set_progress (bytes : FileBytes) (id tot : ℕ) (ph : PreviewFile)
    (p : ℤ) (cur d : ℕ) :
    stepSnaps bytes id tot { ph with progress := p } cur d
      = stepSnaps bytes id tot ph cur d := rfl

/-! ### Unfolding lemmas for `processNextChunk` -/

lemma processNextChunk_done (oracle : ℕ → Bool) (bytes : FileBytes)
    (id tot fuel cur : ℕ) (ph : PreviewFile) (db : IDB) (h : tot ≤ cur) :
    processNextChunk oracle bytes id tot fuel cur ph db
      = ({ ph with loading := false, progress := 100 }, db,
         [Ev.done 100 false], [{ ph with loading := false, progress := 100 }]) := by
  cases fuel <;> simp [processNextChunk, h]

lemma processNextChunk_err (oracle : ℕ → Bool) (bytes : FileBytes)
    (id tot fuel cur : ℕ) (ph : PreviewFile) (db : IDB)
    (h : ¬ tot ≤ cur) (ho : oracle cur = true) :
    processNextChunk oracle bytes id tot (fuel + 1) cur ph db
      = ({ ph with loading := false }, db,
         [Ev.err ph.progress false], [{ ph with loading := false }]) := by
  simp [processNextChunk, h, ho]

lemma processNextChunk_cont (oracle : ℕ → Bool) (bytes : FileBytes)
    (id tot fuel cur : ℕ) (ph : PreviewFile) (db : IDB)
    (h : ¬ tot ≤ cur) (ho : oracle cur = false) :
    processNextChunk oracle bytes id tot (fuel + 1) cur ph db
      = (let r := processNextChunk oracle bytes id tot fuel (cur + 1)
           { ph with progress := pct tot (cur + 1) }
           (saveChunk (chunkRec bytes id tot cur) db)
         (r.1, r.2.1,
          Ev.put (chunkRec bytes id tot cur) :: Ev.prog (pct tot (cur + 1)) ph.loading ::
            r.2.2.1,
          { ph with progress := pct tot (cur + 1) } :: r.2.2.2)) := by
  simp [processNextChunk, h, ho, chunkRec]

/-! ### The two run-shape lemmas -/

/-- A failure-free run from chunk `cur` with enough fuel: every remaining
chunk is put in index order, each put is followed by its progress update,
and the record ends with `loading = false, progress = 100`. -/
lemma processNextChunk_success (oracle : ℕ → Bool) (bytes : FileBytes) (id tot : ℕ) :
    ∀ (d cur fuel : ℕ) (ph : PreviewFile) (db : IDB),
      tot - cur = d → d ≤ fuel →
      (∀ i, cur ≤ i → i < tot → oracle i = false) →
      processNextChunk oracle bytes id tot fuel cur ph db =
        ({ ph with loading := false, progress := 100 },
         putAll bytes id tot cur d db,
         stepEvents bytes id tot ph.loading cur d ++ [Ev.done 100 false],
         stepSnaps bytes id tot ph cur d
           ++ [{ ph with loading := false, progress := 100 }]) := by
  intro d
  induction d with
  | zero =>
    intro cur fuel ph db hd hf ho
    have hcur : tot ≤ cur := by omega
    rw [processNextChunk_done oracle bytes id tot fuel cur ph db hcur]
    simp [putAll_zero, stepEvents_zero, stepSnaps_zero]
  | succ d ih =>
    intro cur fuel ph db hd hf ho
    have hcur : ¬ tot ≤ cur := by omega
    obtain ⟨fuel', rfl⟩ : ∃ f, fuel = f + 1 := ⟨fuel - 1, by omega⟩
    rw [processNextChunk_cont oracle bytes id tot fuel' cur ph db hcur
      (ho cur le_rfl (by omega))]
    rw [ih (cur + 1) fuel' { ph with progress := pct tot (cur + 1) }
      (saveChunk (chunkRec bytes id tot cur) db) (by omega) (by omega)
      (fun i hi hi2 => ho i (by omega) hi2)]
    simp only [putAll_succ, stepEvents_succ, stepSnaps_succ, stepSnaps_set_progress]
    rfl

/-- A run that fails at chunk `k` (every earlier chunk succeeding): chunks
`cur, …, k-1` are put in order, then the catch branch fires — `loading`
becomes `false` and `progress` stays at the last successful percentage
(the starting progress when no chunk committed). -/
lemma processNextChunk_failure (oracle : ℕ → Bool) (bytes : FileBytes) (id tot : ℕ) :
    ∀ (d cur fuel k : ℕ) (ph : PreviewFile) (db : IDB),
      k - cur = d → cur ≤ k → k < tot → d < fuel →
      (∀ i, cur ≤ i → i < k → oracle i = false) → oracle k = true →
      processNextChunk oracle bytes id tot fuel cur ph db =
        ({ ph with loading := false,
                   progress := if cur < k then pct tot k else ph.progress },
         putAll bytes id tot cur d db,
         stepEvents bytes id tot ph.loading cur d
           ++ [Ev.err (if cur < k then pct tot k else ph.progress) false],
         stepSnaps bytes id tot ph cur d
           ++ [{ ph with loading := false,
                         progress := if cur < k then pct tot k else ph.progress }]) := by
  intro d
  induction d with
  | zero =>
    intro cur fuel k ph db hd hck hkt hf ho hk
    have hcur : cur = k := by omega
    subst hcur
    have hnot : ¬ tot ≤ cur := by omega
    obtain ⟨fuel', rfl⟩ : ∃ f, fuel = f + 1 := ⟨fuel - 1, by omega⟩
    rw [processNextChunk_err oracle bytes id tot fuel' cur ph db hnot hk]
    simp [putAll_zero, stepEvents_zero, stepSnaps_zero]
  | succ d ih =>
    intro cur fuel k ph db hd hck hkt hf ho hk
    have hcur : ¬ tot ≤ cur := by omega
    obtain ⟨fuel', rfl⟩ : ∃ f, fuel = f + 1 := ⟨fuel - 1, by omega⟩
    rw [processNextChunk_cont oracle bytes id tot fuel' cur ph db hcur
      (ho cur le_rfl (by omega))]
    rw [ih (cur + 1) fuel' k { ph with progress := pct tot (cur + 1) }
      (saveChunk (chunkRec bytes id tot cur) db) (by omega) (by omega) hkt (by omega)
      (fun i hi hi2 => ho i (by omega) hi2) hk]
    have hlt : cur < k := by omega
    by_cases hck1 : cur + 1 < k
    · simp only [putAll_succ, stepEvents_succ, stepSnaps_succ, stepSnaps_set_progress,
        if_pos hck1, if_pos hlt]
      rfl
    · have hkeq : k = cur + 1 := by omega
      simp only [putAll_succ, stepEvents_succ, stepSnaps_succ, stepSnaps_set_progress,
        if_neg hck1, if_pos hlt, hkeq]
      simp [Nat.lt_succ_self]

/-! ### Corollaries for `ingestFile` -/

/-- A failure-free ingestion, in closed form. -/
lemma ingestFile_success (oracle : ℕ → Bool) (url name : String) (bytes : FileBytes)
    (id : ℕ) (db : IDB)
    (ho : ∀ i, i < totalChunksOf bytes.length → oracle i = false) :
    ingestFile oracle url name bytes id db =
      ({ initialRecord url name bytes id with loading := false, progress := 100 },
       putAll bytes id (totalChunksOf bytes.length) 0 (totalChunksOf bytes.length) db,
       stepEvents bytes id (totalChunksOf bytes.length) true 0 (totalChunksOf bytes.length)
         ++ [Ev.done 100 false],
       stepSnaps bytes id (totalChunksOf bytes.length) (initialRecord url name bytes id)
           0 (totalChunksOf bytes.length)
         ++ [{ initialRecord url name bytes id with loading := false, progress := 100 }]) := by
  rw [ingestFile]
  rw [processNextChunk_success oracle bytes id (totalChunksOf bytes.length)
    (totalChunksOf bytes.length) 0 (totalChunksOf bytes.length)
    (initialRecord url name bytes id) db (by omega) le_rfl
    (fun i hi hi2 => ho i hi2)]
  rfl

/-- An ingestion whose first failing chunk is `k`, in closed form. -/
lemma ingestFile_failure (oracle : ℕ → Bool) (url name : String) (bytes : FileBytes)
    (id k : ℕ) (db : IDB)
    (hk : k < totalChunksOf bytes.length)
    (ho : ∀ i, i < k → oracle i = false) (hfail : oracle k = true) :
    ingestFile oracle url name bytes id db =
      ({ initialRecord url name bytes id with
           loading := false
           progress := if 0 < k then pct (totalChunksOf bytes.length) k else 0 },
       putAll bytes id (totalChunksOf bytes.length) 0 k db,
       stepEvents bytes id (totalChunksOf bytes.length) true 0 k
         ++ [Ev.err (if 0 < k then pct (totalChunksOf bytes.length) k else 0) false],
       stepSnaps bytes id (totalChunksOf bytes.length) (initialRecord url name bytes id) 0 k
         ++ [{ initialRecord url name bytes id with
                 loading := false
                 progress := if 0 < k then pct (totalChunksOf bytes.length) k else 0 }]) := by
  rw [ingestFile]
  rw [processNextChunk_failure oracle bytes id (totalChunksOf bytes.length)
    k 0 (totalChunksOf bytes.length) k
    (initialRecord url name bytes id) db (by omega) (by omega) hk (by omega)
    (fun i hi hi2 => ho i hi2) hfail]
  rfl

/-! ### Extracting the put events -/

lemma putsOf_append (l1 l2 : List Ev) : putsOf (l1 ++ l2) = putsOf l1 ++ putsOf l2 := by
  simp [putsOf]

lemma putsOf_stepEvents (bytes : FileBytes) (id tot : ℕ) (b : Bool) :
    ∀ (d cur : ℕ), putsOf (stepEvents bytes id tot b cur d)
      = (List.range' cur d).map (chunkRec bytes id tot) := by
  intro d
  induction d with
  | zero => intro cur; rfl
  | succ d ih =>
    intro cur
    rw [stepEvents_succ, List.range'_succ]
    simp only [putsOf, List.filterMap_cons, List.map_cons]
    rw [← putsOf, ih]

lemma putsOf_done (p : ℤ) (b : Bool) : putsOf [Ev.done p b] = [] := rfl

lemma putsOf_err (p : ℤ) (b : Bool) : putsOf [Ev.err p b] = [] := rfl

/-! ### Store contents after a run -/

lemma saveChunk_hasIndex (c : FileChunk) (db : IDB) :
    (saveChunk c db).hasFileIdIndex = db.hasFileIdIndex := by
  rw [saveChunk]; split <;> rfl

lemma putAll_hasIndex (bytes : FileBytes) (id tot : ℕ) :
    ∀ (d cur : ℕ) (db : IDB),
      (putAll bytes id tot cur d db).hasFileIdIndex = db.hasFileIdIndex := by
  intro d
  induction d with
  | zero => intro cur db; rfl
  | succ d ih => intro cur db; rw [putAll_succ, ih, saveChunk_hasIndex]

/-- A `put` whose composite key is fresh appends the record. -/
lemma saveChunk_fresh (c : FileChunk) (db : IDB)
    (h : ∀ k ∈ db.chunks, k.fileId = c.fileId → k.chunkIndex ≠ c.chunkIndex) :
    saveChunk c db = { db with chunks := db.chunks ++ [c] } := by
  have hany : db.chunks.any (sameKey c) = false := by
    rw [List.any_eq_false]
    intro k hk
    simp only [sameKey, Bool.and_eq_true, beq_iff_eq, not_and]
    intro h1 h2
    exact h k hk h1.symm h2.symm
  rw [saveChunk, if_neg (by simp [hany])]

/-- Putting chunks `cur, …, cur+d-1` of a file whose earlier stored chunks
all have smaller indices appends exactly those chunk records, in order. -/
lemma putAll_chunks_fresh (bytes : FileBytes) (id tot : ℕ) :
    ∀ (d cur : ℕ) (db : IDB),
      (∀ k ∈ db.chunks, k.fileId = id → k.chunkIndex < cur) →
      (putAll bytes id tot cur d db).chunks
        = db.chunks ++ (List.range' cur d).map (chunkRec bytes id tot) := by
  intro d
  induction d with
  | zero => intro cur db h; simp [putAll_zero]
  | succ d ih =>
    intro cur db h
    rw [putAll_succ]
    rw [saveChunk_fresh (chunkRec bytes id tot cur) db
      (fun k hk h1 => by have := h k hk h1; simp [chunkRec]; omega)]
    rw [ih (cur + 1) _ (by
      intro k hk h1
      simp only [List.mem_append, List.mem_singleton] at hk
      rcases hk with hk | hk
      · have := h k hk h1; omega
      · subst hk; simp [chunkRec])]
    rw [List.range'_succ]
    simp

/-! ### Independence of pipelines from the shared store contents -/

/-- The final record, trace and snapshots of a run do not depend on the
starting database (the store is only written, never read, by the pipeline). -/
lemma processNextChunk_db_irrel (oracle : ℕ → Bool) (bytes : FileBytes) (id tot : ℕ) :
    ∀ (fuel cur : ℕ) (ph : PreviewFile) (db₁ db₂ : IDB),
      (processNextChunk oracle bytes id tot fuel cur ph db₁).1
        = (processNextChunk oracle bytes id tot fuel cur ph db₂).1 ∧
      (processNextChunk oracle bytes id tot fuel cur ph db₁).2.2.1
        = (processNextChunk oracle bytes id tot fuel cur ph db₂).2.2.1 ∧
      (processNextChunk oracle bytes id tot fuel cur ph db₁).2.2.2
        = (processNextChunk oracle bytes id tot fuel cur ph db₂).2.2.2 := by
  intro fuel
  induction fuel with
  | zero =>
    intro cur ph db₁ db₂
    by_cases h : tot ≤ cur
    · rw [processNextChunk_done oracle bytes id tot 0 cur ph db₁ h,
        processNextChunk_done oracle bytes id tot 0 cur ph db₂ h]
      exact ⟨rfl, rfl, rfl⟩
    · simp [processNextChunk, h]
  | succ fuel ih =>
    intro cur ph db₁ db₂
    by_cases h : tot ≤ cur
    · rw [processNextChunk_done oracle bytes id tot (fuel + 1) cur ph db₁ h,
        processNextChunk_done oracle bytes id tot (fuel + 1) cur ph db₂ h]
      exact ⟨rfl, rfl, rfl⟩
    · by_cases ho : oracle cur = true
      · rw [processNextChunk_err oracle bytes id tot fuel cur ph db₁ h ho,
          processNextChunk_err oracle bytes id tot fuel cur ph db₂ h ho]
        exact ⟨rfl, rfl, rfl⟩
      · have ho' : oracle cur = false := by
          cases hoc : oracle cur
          · rfl
          · exact absurd hoc ho
        rw [processNextChunk_cont oracle bytes id tot fuel cur ph db₁ h ho',
          processNextChunk_cont oracle bytes id tot fuel cur ph db₂ h ho']
        obtain ⟨h1, h2, h3⟩ := ih (cur + 1) { ph with progress := pct tot (cur + 1) }
          (saveChunk (chunkRec bytes id tot cur) db₁)
          (saveChunk (chunkRec bytes id tot cur) db₂)
        exact ⟨h1, by simp only [h2], by simp only [h3]⟩

/-- The pipeline never toggles the index flag of the store. -/
lemma processNextChunk_hasIndex (oracle : ℕ → Bool) (bytes : FileBytes) (id tot : ℕ) :
    ∀ (fuel cur : ℕ) (ph : PreviewFile) (db : IDB),
      (processNextChunk oracle bytes id tot fuel cur ph db).2.1.hasFileIdIndex
        = db.hasFileIdIndex := by
  intro fuel
  induction fuel with
  | zero =>
    intro cur ph db
    by_cases h : tot ≤ cur
    · rw [processNextChunk_done oracle bytes id tot 0 cur ph db h]
    · simp [processNextChunk, h]
  | succ fuel ih =>
    intro cur ph db
    by_cases h : tot ≤ cur
    · rw [processNextChunk_done oracle bytes id tot (fuel + 1) cur ph db h]
    · by_cases ho : oracle cur = true
      · rw [processNextChunk_err oracle bytes id tot fuel cur ph db h ho]
      · have ho' : oracle cur = false := by
          cases hoc : oracle cur
          · rfl
          · exact absurd hoc ho
        rw [processNextChunk_cont oracle bytes id tot fuel cur ph db h ho']
        simp only
        rw [ih, saveChunk_hasIndex]

/-! ### `handleFiles` structural lemmas -/

lemma push_partition_same (ty : MediaType) (r : PreviewFile) (st : CompState) :
    (CompState.push ty r st).partition ty = st.partition ty ++ [r] := by
  cases ty <;> rfl

lemma push_idCounter (ty : MediaType) (r : PreviewFile) (st : CompState) :
    (CompState.push ty r st).idCounter = st.idCounter := by
  cases ty <;> rfl

lemma partition_set_counter (st : CompState) (n : ℕ) (ty : MediaType) :
    ({ st with idCounter := n } : CompState).partition ty = st.partition ty := by
  cases ty <;> rfl

/-- Existing records of the target partition survive `handleFiles` as a prefix. -/
lemma handleFiles_prefix (ty : MediaType) :
    ∀ (files : List (String × FileBytes)) (oracle : ℕ → ℕ → Bool) (urls : ℕ → String)
      (st : CompState) (db : IDB),
      ∃ t, (handleFiles oracle urls ty files st db).1.partition ty
        = st.partition ty ++ t := by
  intro files
  induction files with
  | nil => intro oracle urls st db; exact ⟨[], by simp [handleFiles]⟩
  | cons f fs ih =>
    intro oracle urls st db
    rw [handleFiles]
    obtain ⟨t, ht⟩ := ih (fun j => oracle (j + 1)) (fun j => urls (j + 1))
      (CompState.push ty
        (ingestFile (oracle 0) (urls 0) f.1 f.2 (st.idCounter + 1) db).1
        { st with idCounter := st.idCounter + 1 })
      (ingestFile (oracle 0) (urls 0) f.1 f.2 (st.idCounter + 1) db).2.1
    refine ⟨(ingestFile (oracle 0) (urls 0) f.1 f.2 (st.idCounter + 1) db).1 :: t, ?_⟩
    rw [ht, push_partition_same, partition_set_counter]
    simp

/-- `handleFiles` never toggles the store's index flag: one file's pipeline
cannot impair the availability of the shared store. -/
lemma handleFiles_hasIndex (ty : MediaType) :
    ∀ (files : List (String × FileBytes)) (oracle : ℕ → ℕ → Bool) (urls : ℕ → String)
      (st : CompState) (db : IDB),
      (handleFiles oracle urls ty files st db).2.hasFileIdIndex = db.hasFileIdIndex := by
  intro files
  induction files with
  | nil => intro oracle urls st db; rfl
  | cons f fs ih =>
    intro oracle urls st db
    rw [handleFiles, ih]
    exact processNextChunk_hasIndex (oracle 0) f.2 (st.idCounter + 1)
      (totalChunksOf f.2.length) (totalChunksOf f.2.length) 0 _ db

/-- The record that `handleFiles` leaves at position `length + j` of the
partition depends only on the `j`-th file and the `j`-th failure oracle:
failures of other files in the batch do not influence it. -/
lemma handleFiles_nth (ty : MediaType) :
    ∀ (files : List (String × FileBytes)) (o₁ o₂ : ℕ → ℕ → Bool) (urls : ℕ → String)
      (st₁ st₂ : CompState) (db₁ db₂ : IDB) (j : ℕ),
      st₁.idCounter = st₂.idCounter →
      (st₁.partition ty).length = (st₂.partition ty).length →
      (∀ i, o₁ j i = o₂ j i) →
      ((handleFiles o₁ urls ty files st₁ db₁).1.partition ty)[(st₁.partition ty).length + j]?
        = ((handleFiles o₂ urls ty files st₂ db₂).1.partition ty)[(st₂.partition ty).length + j]? := by
  intro files
  induction files with
  | nil =>
    intro o₁ o₂ urls st₁ st₂ db₁ db₂ j hc hl hagree
    rw [handleFiles, handleFiles]
    show (st₁.partition ty)[(st₁.partition ty).length + j]?
      = (st₂.partition ty)[(st₂.partition ty).length + j]?
    rw [List.getElem?_eq_none (by omega), List.getElem?_eq_none (by omega)]
  | cons f fs ih =>
    intro o₁ o₂ urls st₁ st₂ db₁ db₂ j hc hl hagree
    rw [handleFiles, handleFiles]
    rcases j with _ | j
    · -- position of this very file record
      have hfun : o₁ 0 = o₂ 0 := funext hagree
      have hrec : (ingestFile (o₁ 0) (urls 0) f.1 f.2 (st₁.idCounter + 1) db₁).1
          = (ingestFile (o₂ 0) (urls 0) f.1 f.2 (st₂.idCounter + 1) db₂).1 := by
        rw [hfun, hc]
        exact (processNextChunk_db_irrel (o₂ 0) f.2 (st₂.idCounter + 1)
          (totalChunksOf f.2.length) (totalChunksOf f.2.length) 0 _ db₁ db₂).1
      obtain ⟨t₁, ht₁⟩ := handleFiles_prefix ty fs (fun j => o₁ (j + 1))
        (fun j => urls (j + 1)) _ _
      obtain ⟨t₂, ht₂⟩ := handleFiles_prefix ty fs (fun j => o₂ (j + 1))
        (fun j => urls (j + 1)) _ _
      rw [ht₁, ht₂, push_partition_same, push_partition_same]
      simp only [partition_set_counter, Nat.add_zero]
      rw [List.getElem?_append_left (by simp)]
      rw [List.getElem?_concat_length]
      rw [List.getElem?_append_left (by simp)]
      rw [List.getElem?_concat_length, hrec]
    · -- positions of later file records: apply the induction hypothesis
      have hlen₁ : ((CompState.push ty
            (ingestFile (o₁ 0) (urls 0) f.1 f.2 (st₁.idCounter + 1) db₁).1
            { st₁ with idCounter := st₁.idCounter + 1 }).partition ty).length
          = (st₁.partition ty).length + 1 := by
        rw [push_partition_same, partition_set_counter]
        simp
      have hlen₂ : ((CompState.push ty
            (ingestFile (o₂ 0) (urls 0) f.1 f.2 (st₂.idCounter + 1) db₂).1
            { st₂ with idCounter := st₂.idCounter + 1 }).partition ty).length
          = (st₂.partition ty).length + 1 := by
        rw [push_partition_same, partition_set_counter]
        simp
      have hidx₁ : (st₁.partition ty).length + (j + 1)
          = ((CompState.push ty
              (ingestFile (o₁ 0) (urls 0) f.1 f.2 (st₁.idCounter + 1) db₁).1
              { st₁ with idCounter := st₁.idCounter + 1 }).partition ty).length + j := by
        omega
      have hidx₂ : (st₂.partition ty).length + (j + 1)
          = ((CompState.push ty
              (ingestFile (o₂ 0) (urls 0) f.1 f.2 (st₂.idCounter + 1) db₂).1
              { st₂ with idCounter := st₂.idCounter + 1 }).partition ty).length + j := by
        omega
      rw [hidx₁, hidx₂]
      exact ih (fun jj => o₁ (jj + 1)) (fun jj => o₂ (jj + 1)) (fun jj => urls (jj + 1))
        _ _ _ _ j (by rw [push_idCounter, push_idCounter, hc]) (by rw [hlen₁, hlen₂, hl])
        (fun i => hagree i)

/-! ### Monotone chain of observed progress values -/

/-- A chain `a, f s, f (s+1), …, f (s+d-1), v` is monotone when the adjacent
links are. -/
lemma chain_block (f : ℕ → ℤ) :
    ∀ (d s : ℕ) (a v : ℤ),
      (∀ j, s ≤ j → j + 1 < s + d → f j ≤ f (j + 1)) →
      (if d = 0 then a ≤ v else a ≤ f s ∧ f (s + d - 1) ≤ v) →
      List.Chain' (· ≤ ·) (a :: (List.range' s d).map f ++ [v]) := by
  intro d
  induction d with
  | zero =>
    intro s a v hm hb
    rw [if_pos rfl] at hb
    simp [hb]
  | succ d ih =>
    intro s a v hm hb
    rw [if_neg (Nat.succ_ne_zero d)] at hb
    rw [List.range'_succ]
    simp only [List.map_cons, List.cons_append]
    rw [List.chain'_cons]
    refine ⟨hb.1, ?_⟩
    have : f s :: (List.range' (s + 1) d).map f ++ [v]
        = f s :: ((List.range' (s + 1) d).map f ++ [v]) := by simp
    rcases Nat.eq_zero_or_pos d with hd | hd
    · subst hd
      simp only [List.range'_zero, List.map_nil, List.nil_append]
      have hfv : f s ≤ v := by
        have := hb.2
        simpa using this
      simp [hfv]
    · exact ih (s + 1) (f s) v
        (fun j hj hj2 => hm j (by omega) (by omega))
        (by
          rw [if_neg (by omega)]
          refine ⟨hm s le_rfl (by omega), ?_⟩
          have : s + 1 + d - 1 = s + (d + 1) - 1 := by omega
          rw [this]
          exact hb.2)

/-- The progress values of the per-chunk snapshots. -/
lemma map_progress_stepSnaps (bytes : FileBytes) (id tot : ℕ) (ph : PreviewFile)
    (cur d : ℕ) :
    (stepSnaps bytes id tot ph cur d).map PreviewFile.progress
      = (List.range' cur d).map fun i => pct tot (i + 1) := by
  simp [stepSnaps]

/-- Every failure oracle either lets all chunks below `tot` through or has a
first failing index. -/
lemma oracle_cases (oracle : ℕ → Bool) (tot : ℕ) :
    (∀ i, i < tot → oracle i = false) ∨
    (∃ k, k < tot ∧ oracle k = true ∧ ∀ i, i < k → oracle i = false) := by
  by_cases hall : ∀ i, i < tot → oracle i = false
  · exact Or.inl hall
  · right
    push_neg at hall
    obtain ⟨i0, hi0, hne⟩ := hall
    have hP : ∃ i, i < tot ∧ oracle i = true := by
      refine ⟨i0, hi0, ?_⟩
      cases h : oracle i0
      · exact absurd h hne
      · rfl
    refine ⟨Nat.find hP, (Nat.find_spec hP).1, (Nat.find_spec hP).2, ?_⟩
    intro i hik
    have hmin := Nat.find_min hP hik
    have hit : i < tot := lt_trans hik (Nat.find_spec hP).1
    cases h : oracle i
    · rfl
    · exact absurd ⟨hit, h⟩ hmin

/-! ### Claim theorems -/

/-- C1: for every file of byte size `S` handed to `handleFiles`, the computed
`totalChunks` equals `ceil(S / 262144)` with the fixed chunk size `262144`
bytes (the natural-number ceiling division `(S + 262143) / 262144`); in
particular `S = 300000` yields `totalChunks = 2`, with chunk payloads of
`262144` and `37856` bytes; the placeholder record stores this value. -/
theorem c1_totalChunks_is_ceil :
    chunkSize = 262144 ∧
    (∀ S : ℕ, totalChunksOf S = (S + 262143) / 262144) ∧
    totalChunksOf 300000 = 2 ∧
    (∀ (url name : String) (bytes : FileBytes) (id : ℕ),
      (initialRecord url name bytes id).totalChunks
        = some (totalChunksOf bytes.length)) ∧
    (∀ bytes : FileBytes, bytes.length = 300000 →
      (chunkData bytes 0).length = 262144 ∧ (chunkData bytes 1).length = 37856) := by
  refine ⟨by norm_num [chunkSize], fun S => ?_, ?_, fun url name bytes id => rfl,
    fun bytes h => ?_⟩
  · rw [totalChunksOf_eq]; norm_num [chunkSize]
  · rw [totalChunksOf_eq]; norm_num [chunkSize]
  · constructor <;>
      simp [chunkData, chunkSize, List.length_take, List.length_drop, h]

/-- C1 witness: a concrete 300000-byte file has chunk payloads of
262144 and 37856 bytes. -/
theorem c1_totalChunks_is_ceil_witness :
    (List.replicate 300000 0 : FileBytes).length = 300000 ∧
    (chunkData (List.replicate 300000 0) 0).length = 262144 ∧
    (chunkData (List.replicate 300000 0) 1).length = 37856 :=
  ⟨by rw [List.length_replicate],
   c1_totalChunks_is_ceil.2.2.2.2 (List.replicate 300000 0)
     (by rw [List.length_replicate])⟩

/-- C10: ingesting a zero-byte file completes immediately: `totalChunks = 0`,
no chunk is ever put (the store is untouched), and the record goes straight
to `loading = false, progress = 100`. -/
theorem c10_zero_byte_file (oracle : ℕ → Bool) (url name : String) (id : ℕ) (db : IDB) :
    totalChunksOf 0 = 0 ∧
    (ingestFile oracle url name [] id db).1.loading = false ∧
    (ingestFile oracle url name [] id db).1.progress = 100 ∧
    (ingestFile oracle url name [] id db).2.1 = db ∧
    putsOf (ingestFile oracle url name [] id db).2.2.1 = [] := by
  have h0 : totalChunksOf 0 = 0 := by rw [totalChunksOf_eq]; norm_num [chunkSize]
  have hrun : ingestFile oracle url name [] id db
      = ({ initialRecord url name [] id with loading := false, progress := 100 }, db,
         [Ev.done 100 false],
         [{ initialRecord url name [] id with loading := false, progress := 100 }]) := by
    rw [ingestFile]
    exact processNextChunk_done oracle [] id (totalChunksOf (List.length []))
      (totalChunksOf (List.length [])) 0 (initialRecord url name [] id) db
      (by simp [h0])
  exact ⟨h0, by rw [hrun], by rw [hrun], by rw [hrun], by rw [hrun]; rfl⟩

/-- C4 (code bug): against any database state produced by `openDB` — no
`fileId` index exists, whatever the store contents — `clearChunksByFileId`
always rejects with `NotFoundError` instead of deleting the matching records
(and instead of being a successful no-op when none exist).  In particular it
rejects on the very first call and again on a repeated call. -/
theorem c4_clearChunks_always_errors :
    (∀ (fid : ℕ) (cs : List FileChunk),
      clearChunksByFileId fid { openedDB with chunks := cs }
        = Except.error StorageErr.notFound) ∧
    clearChunksByFileId 1 openedDB = Except.error StorageErr.notFound := by
  exact ⟨fun fid cs => rfl, rfl⟩

/-- C2: in a failure-free ingestion with a fresh file id, the chunks are put
strictly in index order starting at 0, chunk `i` carrying exactly the slice
`[i*chunkSize, min((i+1)*chunkSize, size))`; each put is followed by its
progress update before the next put starts; concatenating the stored
payloads in index order reproduces the file's bytes; and the store ends up
holding exactly those chunk records, appended in index order. -/
theorem c2_sequential_chunks_roundtrip (oracle : ℕ → Bool) (url name : String)
    (bytes : FileBytes) (id : ℕ) (db : IDB)
    (hfresh : ∀ k ∈ db.chunks, k.fileId ≠ id)
    (ho : ∀ i, i < totalChunksOf bytes.length → oracle i = false) :
    putsOf (ingestFile oracle url name bytes id db).2.2.1
        = (List.range (totalChunksOf bytes.length)).map
            (chunkRec bytes id (totalChunksOf bytes.length)) ∧
    (∀ i, (chunkRec bytes id (totalChunksOf bytes.length) i).data
        = (bytes.drop (i * chunkSize)).take
            (min ((i + 1) * chunkSize) bytes.length - i * chunkSize)) ∧
    ((putsOf (ingestFile oracle url name bytes id db).2.2.1).map
        FileChunk.data).flatten = bytes ∧
    (ingestFile oracle url name bytes id db).2.1.chunks
        = db.chunks ++ (List.range (totalChunksOf bytes.length)).map
            (chunkRec bytes id (totalChunksOf bytes.length)) ∧
    (ingestFile oracle url name bytes id db).2.2.1
        = stepEvents bytes id (totalChunksOf bytes.length) true 0
            (totalChunksOf bytes.length) ++ [Ev.done 100 false] := by
  have hputs : putsOf (ingestFile oracle url name bytes id db).2.2.1
      = (List.range (totalChunksOf bytes.length)).map
          (chunkRec bytes id (totalChunksOf bytes.length)) := by
    rw [ingestFile_success oracle url name bytes id db ho]
    simp only [putsOf_append, putsOf_stepEvents, putsOf_done]
    rw [List.range_eq_range']
    simp
  have hdata : ∀ i, (chunkRec bytes id (totalChunksOf bytes.length) i).data
      = (bytes.drop (i * chunkSize)).take
          (min ((i + 1) * chunkSize) bytes.length - i * chunkSize) := by
    intro i
    simp only [chunkRec, chunkData]
    have : (i + 1) * chunkSize = i * chunkSize + chunkSize := by ring
    rw [this]
  refine ⟨hputs, hdata, ?_, ?_, ?_⟩
  · rw [hputs]
    have : ((List.range (totalChunksOf bytes.length)).map
          (chunkRec bytes id (totalChunksOf bytes.length))).map FileChunk.data
        = (List.range (totalChunksOf bytes.length)).map fun i => chunkData bytes i := by
      simp [chunkRec]
    rw [this, flatten_chunkData]
  · have h4 : (ingestFile oracle url name bytes id db).2.1
        = putAll bytes id (totalChunksOf bytes.length) 0 (totalChunksOf bytes.length) db := by
      rw [ingestFile_success oracle url name bytes id db ho]
    rw [h4, putAll_chunks_fresh bytes id (totalChunksOf bytes.length)
      (totalChunksOf bytes.length) 0 db
      (fun k hk h1 => absurd h1 (hfresh k hk)),
      List.range_eq_range']
  · rw [ingestFile_success oracle url name bytes id db ho]

/-- C2 witness: a concrete failure-free run on a 3-byte file round-trips. -/
theorem c2_sequential_chunks_roundtrip_witness :
    (∀ k ∈ ({ hasFileIdIndex := false, chunks := [] } : IDB).chunks, k.fileId ≠ 1) ∧
    (∀ i, i < totalChunksOf ([1, 2, 3] : FileBytes).length →
      (fun _ => false : ℕ → Bool) i = false) ∧
    ((putsOf (ingestFile (fun _ => false) "u" "a" [1, 2, 3] 1
        { hasFileIdIndex := false, chunks := [] }).2.2.1).map
      FileChunk.data).flatten = [1, 2, 3] :=
  ⟨fun k hk => by simp at hk, fun i _ => rfl,
   (c2_sequential_chunks_roundtrip (fun _ => false) "u" "a" [1, 2, 3] 1
     { hasFileIdIndex := false, chunks := [] }
     (fun k hk => by simp at hk) (fun i _ => rfl)).2.2.1⟩

/-- C3: after the put of chunk `i` commits, the record's progress is set to
`round(100 * (i+1) / totalChunks)` with `loading` still `true` (each such
update sits between the put of chunk `i` and the put of chunk `i+1` in the
trace), and after the last chunk commits the record is set to
`loading = false, progress = 100`. -/
theorem c3_progress_updates (oracle : ℕ → Bool) (url name : String)
    (bytes : FileBytes) (id : ℕ) (db : IDB)
    (ho : ∀ i, i < totalChunksOf bytes.length → oracle i = false) :
    (ingestFile oracle url name bytes id db).2.2.1
      = ((List.range (totalChunksOf bytes.length)).map fun i =>
          [Ev.put (chunkRec bytes id (totalChunksOf bytes.length) i),
           Ev.prog (jsRound (100 * ((i : ℚ) + 1) / (totalChunksOf bytes.length : ℚ)))
             true]).flatten
        ++ [Ev.done 100 false] ∧
    (ingestFile oracle url name bytes id db).1.loading = false ∧
    (ingestFile oracle url name bytes id db).1.progress = 100 := by
  have htr : (ingestFile oracle url name bytes id db).2.2.1
      = stepEvents bytes id (totalChunksOf bytes.length) true 0
          (totalChunksOf bytes.length) ++ [Ev.done 100 false] := by
    rw [ingestFile_success oracle url name bytes id db ho]
  refine ⟨?_, ?_, ?_⟩
  · rw [htr]
    congr 1
    simp only [stepEvents]
    rw [List.range_eq_range']
    apply congrArg List.flatten
    apply List.map_congr_left
    intro i hi
    have hp : pct (totalChunksOf bytes.length) (i + 1)
        = jsRound (100 * ((i : ℚ) + 1) / (totalChunksOf bytes.length : ℚ)) := by
      rw [pct_eq_spec]
      congr 1
      push_cast
      ring
    rw [hp]
  · rw [ingestFile_success oracle url name bytes id db ho]
  · rw [ingestFile_success oracle url name bytes id db ho]

/-- C3 witness: a concrete failure-free run ends loaded at 100 percent. -/
theorem c3_progress_updates_witness :
    (∀ i, i < totalChunksOf ([5, 6, 7] : FileBytes).length →
      (fun _ => false : ℕ → Bool) i = false) ∧
    ((ingestFile (fun _ => false) "u3" "b" [5, 6, 7] 2
        { hasFileIdIndex := false, chunks := [] }).1.loading = false ∧
     (ingestFile (fun _ => false) "u3" "b" [5, 6, 7] 2
        { hasFileIdIndex := false, chunks := [] }).1.progress = 100) :=
  ⟨fun i _ => rfl,
   (c3_progress_updates (fun _ => false) "u3" "b" [5, 6, 7] 2
     { hasFileIdIndex := false, chunks := [] } (fun i _ => rfl)).2⟩

/-- C6 counterexample: when the very first chunk of a 3-byte file fails, the
record ends with `loading = false` while `progress` is still `0`, so
"whenever loading becomes false the progress equals 100" is false on the
code as written. -/
theorem c6_counterexample :
    (ingestFile (fun _ => true) "u6" "c" [9, 9, 9] 3
        { hasFileIdIndex := false, chunks := [] }).1.loading = false ∧
    (ingestFile (fun _ => true) "u6" "c" [9, 9, 9] 3
        { hasFileIdIndex := false, chunks := [] }).1.progress = 0 ∧
    (0 : ℤ) ≠ 100 := by
  have h1 : 0 < totalChunksOf (List.length ([9, 9, 9] : FileBytes)) := by
    show 0 < totalChunksOf 3
    rw [totalChunksOf_eq]
    norm_num [chunkSize]
  have hrun := ingestFile_failure (fun _ => true) "u6" "c" [9, 9, 9] 3 0
    { hasFileIdIndex := false, chunks := [] } h1
    (fun i hi => absurd hi (Nat.not_lt_zero i)) rfl
  rw [hrun]
  refine ⟨rfl, ?_, by norm_num⟩
  simp

/-- C6 (amended): for every ingested file the observed progress values —
the initial record followed by the snapshot after every mutation — form a
monotonically non-decreasing chain; when loading becomes false through
normal completion (no chunk failure) the progress equals 100, while a chunk
failure sets loading to false with progress frozen at the last successful
percentage, possibly below 100. -/
theorem c6_progress_monotone (oracle : ℕ → Bool) (url name : String)
    (bytes : FileBytes) (id : ℕ) (db : IDB) :
    List.Chain' (fun a b => a.progress ≤ b.progress)
      (initialRecord url name bytes id ::
        (ingestFile oracle url name bytes id db).2.2.2) ∧
    ((∀ i, i < totalChunksOf bytes.length → oracle i = false) →
      (ingestFile oracle url name bytes id db).1.loading = false ∧
      (ingestFile oracle url name bytes id db).1.progress = 100) := by
  constructor
  · have key : ∀ L : List PreviewFile,
        List.Chain' (· ≤ ·) (L.map PreviewFile.progress) →
        List.Chain' (fun a b : PreviewFile => a.progress ≤ b.progress) L := by
      intro L h
      exact (List.chain'_map PreviewFile.progress).mp h
    rcases oracle_cases oracle (totalChunksOf bytes.length) with ho | ⟨k, hk, hfail, hmin⟩
    · rw [ingestFile_success oracle url name bytes id db ho]
      apply key
      have hmap : ((initialRecord url name bytes id ::
            (stepSnaps bytes id (totalChunksOf bytes.length)
              (initialRecord url name bytes id) 0 (totalChunksOf bytes.length)
             ++ [{ initialRecord url name bytes id with
                   loading := false, progress := 100 }])).map PreviewFile.progress)
          = (0 : ℤ) :: ((List.range' 0 (totalChunksOf bytes.length)).map
              fun i => pct (totalChunksOf bytes.length) (i + 1)) ++ [(100 : ℤ)] := by
        simp [map_progress_stepSnaps, initialRecord]
      rw [hmap]
      apply chain_block
      · intro j hj hj2
        exact pct_mono (totalChunksOf bytes.length) (j + 1)
      · by_cases htot : totalChunksOf bytes.length = 0
        · rw [if_pos htot]; norm_num
        · rw [if_neg htot]
          refine ⟨pct_nonneg _ _, ?_⟩
          have he : 0 + totalChunksOf bytes.length - 1 + 1 = totalChunksOf bytes.length := by
            omega
          rw [he, pct_total (totalChunksOf bytes.length) (by omega)]
    · rw [ingestFile_failure oracle url name bytes id k db hk hmin hfail]
      apply key
      have hmap : ((initialRecord url name bytes id ::
            (stepSnaps bytes id (totalChunksOf bytes.length)
              (initialRecord url name bytes id) 0 k
             ++ [{ initialRecord url name bytes id with
                   loading := false,
                   progress := if 0 < k then pct (totalChunksOf bytes.length) k
                     else 0 }])).map PreviewFile.progress)
          = (0 : ℤ) :: ((List.range' 0 k).map
              fun i => pct (totalChunksOf bytes.length) (i + 1))
            ++ [if 0 < k then pct (totalChunksOf bytes.length) k else (0 : ℤ)] := by
        simp [map_progress_stepSnaps, initialRecord]
      rw [hmap]
      apply chain_block
      · intro j hj hj2
        exact pct_mono (totalChunksOf bytes.length) (j + 1)
      · by_cases hk0 : k = 0
        · rw [if_pos hk0, hk0]
          simp
        · rw [if_neg hk0, if_pos (by omega : 0 < k)]
          refine ⟨pct_nonneg _ _, ?_⟩
          have he : 0 + k - 1 + 1 = k := by omega
          rw [he]
  · intro ho
    rw [ingestFile_success oracle url name bytes id db ho]
    exact ⟨rfl, rfl⟩

/-- C6 (amended) witness: on a concrete failure-free run the chain is
monotone and the record completes at 100 percent. -/
theorem c6_progress_monotone_witness :
    (∀ i, i < totalChunksOf ([4, 4] : FileBytes).length →
      (fun _ => false : ℕ → Bool) i = false) ∧
    ((ingestFile (fun _ => false) "u7" "d" [4, 4] 4
        { hasFileIdIndex := false, chunks := [] }).1.loading = false ∧
     (ingestFile (fun _ => false) "u7" "d" [4, 4] 4
        { hasFileIdIndex := false, chunks := [] }).1.progress = 100) :=
  ⟨fun i _ => rfl,
   (c6_progress_monotone (fun _ => false) "u7" "d" [4, 4] 4
     { hasFileIdIndex := false, chunks := [] }).2 (fun i _ => rfl)⟩

/-- C7: if reading or storing a chunk fails, no further chunk of that file
is written, the record ends with `loading = false` and progress frozen at
the last successful percentage; the failure does not change any other
file's final record in the batch, and the shared store's availability (its
index structure) is untouched by the pipelines. -/
theorem c7_failure_containment :
    (∀ (oracle : ℕ → Bool) (url name : String) (bytes : FileBytes) (id k : ℕ) (db : IDB),
      k < totalChunksOf bytes.length →
      (∀ i, i < k → oracle i = false) → oracle k = true →
      putsOf (ingestFile oracle url name bytes id db).2.2.1
          = (List.range k).map (chunkRec bytes id (totalChunksOf bytes.length)) ∧
      (ingestFile oracle url name bytes id db).1.loading = false ∧
      (ingestFile oracle url name bytes id db).1.progress
          = (if 0 < k then jsRound (100 * (k : ℚ) / (totalChunksOf bytes.length : ℚ))
             else 0)) ∧
    (∀ (ty : MediaType) (files : List (String × FileBytes)) (o₁ o₂ : ℕ → ℕ → Bool)
        (urls : ℕ → String) (st : CompState) (db : IDB) (j : ℕ),
      (∀ i, o₁ j i = o₂ j i) →
      ((handleFiles o₁ urls ty files st db).1.partition ty)[(st.partition ty).length + j]?
        = ((handleFiles o₂ urls ty files st db).1.partition ty)[(st.partition ty).length + j]?) ∧
    (∀ (ty : MediaType) (files : List (String × FileBytes)) (oracle : ℕ → ℕ → Bool)
        (urls : ℕ → String) (st : CompState) (db : IDB),
      (handleFiles oracle urls ty files st db).2.hasFileIdIndex = db.hasFileIdIndex) := by
  refine ⟨?_, ?_, ?_⟩
  · intro oracle url name bytes id k db hk ho hfail
    rw [ingestFile_failure oracle url name bytes id k db hk ho hfail]
    refine ⟨?_, rfl, ?_⟩
    · show putsOf (stepEvents bytes id (totalChunksOf bytes.length) true 0 k
          ++ [Ev.err (if 0 < k then pct (totalChunksOf bytes.length) k else 0) false])
        = (List.range k).map (chunkRec bytes id (totalChunksOf bytes.length))
      rw [putsOf_append, putsOf_stepEvents, putsOf_err, List.append_nil,
        List.range_eq_range']
    · show (if 0 < k then pct (totalChunksOf bytes.length) k else 0)
        = if 0 < k then jsRound (100 * (k : ℚ) / (totalChunksOf bytes.length : ℚ)) else 0
      by_cases h : 0 < k
      · rw [if_pos h, if_pos h, pct_eq_spec]
      · rw [if_neg h, if_neg h]
  · intro ty files o₁ o₂ urls st db j hagree
    exact handleFiles_nth ty files o₁ o₂ urls st st db db j rfl rfl hagree
  · intro ty files oracle urls st db
    exact handleFiles_hasIndex ty files oracle urls st db

/-- C7 witness: a concrete run whose first chunk fails writes nothing, ends
unloaded at the initial percentage; and two identical one-file batches with
pointwise-equal oracles leave the same record. -/
theorem c7_failure_containment_witness :
    (0 < totalChunksOf ([8, 8] : FileBytes).length ∧
     (∀ i, i < 0 → (fun _ => true : ℕ → Bool) i = false) ∧
     (fun _ => true : ℕ → Bool) 0 = true) ∧
    (putsOf (ingestFile (fun _ => true) "u8" "e" [8, 8] 5
          { hasFileIdIndex := false, chunks := [] }).2.2.1
        = (List.range 0).map (chunkRec [8, 8] 5 (totalChunksOf ([8, 8] : FileBytes).length)) ∧
     (ingestFile (fun _ => true) "u8" "e" [8, 8] 5
        { hasFileIdIndex := false, chunks := [] }).1.loading = false ∧
     (ingestFile (fun _ => true) "u8" "e" [8, 8] 5
        { hasFileIdIndex := false, chunks := [] }).1.progress
        = (if 0 < 0 then jsRound (100 * ((0 : ℕ) : ℚ)
             / (totalChunksOf ([8, 8] : FileBytes).length : ℚ)) else 0)) :=
  ⟨⟨show 0 < totalChunksOf 2 by rw [totalChunksOf_eq]; norm_num [chunkSize],
    fun i hi => absurd hi (Nat.not_lt_zero i), rfl⟩,
   c7_failure_containment.1 (fun _ => true) "u8" "e" [8, 8] 5 0
     { hasFileIdIndex := false, chunks := [] }
     (show 0 < totalChunksOf 2 by rw [totalChunksOf_eq]; norm_num [chunkSize])
     (fun i hi => absurd hi (Nat.not_lt_zero i)) rfl⟩

/-- Inversion of a successful `clearChunksByFileId`. -/
lemma clearChunks_ok (id : ℕ) (db db' : IDB)
    (h : clearChunksByFileId id db = Except.ok db') :
    db'.chunks = db.chunks.filter (fun c => c.fileId ≠ id) ∧
    db'.hasFileIdIndex = db.hasFileIdIndex := by
  rw [clearChunksByFileId] at h
  by_cases hidx : db.hasFileIdIndex = true
  · rw [if_pos hidx] at h
    have := Except.ok.inj h
    rw [← this]
    exact ⟨rfl, rfl⟩
  · rw [if_neg hidx] at h
    exact absurd h (by simp)

/-- C5: `removePreview` awaits the storage cleanup first; when that cleanup
fails the method rejects and the in-memory record stays (nothing is revoked
or removed); when it succeeds, the handle revocation and the removal of the
record from its partition follow, in that order, and the store no longer
holds any chunk of the removed id. -/
theorem c5_remove_order_and_failure (id : ℕ) (st : CompState) (db : IDB) :
    (∀ e, clearChunksByFileId id db = Except.error e →
      (removePreview id st db).resolved = false ∧
      (removePreview id st db).st = st ∧
      (removePreview id st db).db = db ∧
      (removePreview id st db).revoked = [] ∧
      (removePreview id st db).actions = [RAct.clearChunks id false]) ∧
    (∀ db', clearChunksByFileId id db = Except.ok db' →
      (removePreview id st db).resolved = true ∧
      (removePreview id st db).db = db' ∧
      (∀ c ∈ db'.chunks, c.fileId ≠ id) ∧
      (∀ it, st.images.find? (fun x => x.id == id) = some it →
        (removePreview id st db).st.images
            = st.images.filter (fun x => x.id != id) ∧
        (removePreview id st db).st.videos = st.videos ∧
        (removePreview id st db).revoked
            = (match it.objectUrl with | some u => [u] | none => []) ∧
        (removePreview id st db).actions
            = RAct.clearChunks id true ::
                ((removePreview id st db).revoked.map RAct.revokeUrl
                  ++ [RAct.removeRecord id])) ∧
      (st.images.find? (fun x => x.id == id) = none →
        ∀ it, st.videos.find? (fun x => x.id == id) = some it →
        (removePreview id st db).st.videos
            = st.videos.filter (fun x => x.id != id) ∧
        (removePreview id st db).st.images = st.images ∧
        (removePreview id st db).revoked
            = (match it.objectUrl with | some u => [u] | none => []) ∧
        (removePreview id st db).actions
            = RAct.clearChunks id true ::
                ((removePreview id st db).revoked.map RAct.revokeUrl
                  ++ [RAct.removeRecord id])) ∧
      (st.images.find? (fun x => x.id == id) = none →
        st.videos.find? (fun x => x.id == id) = none →
        (removePreview id st db).st = st ∧
        (removePreview id st db).revoked = [])) := by
  constructor
  · intro e he
    simp [removePreview, he]
  · intro db' hok
    obtain ⟨hch, hidx⟩ := clearChunks_ok id db db' hok
    refine ⟨?_, ?_, ?_, ?_, ?_, ?_⟩
    · simp only [removePreview, hok]
      cases hfi : st.images.find? fun x => x.id == id
      · cases hfv : st.videos.find? fun x => x.id == id
        · rfl
        · rfl
      · rfl
    · simp only [removePreview, hok]
      cases hfi : st.images.find? fun x => x.id == id
      · cases hfv : st.videos.find? fun x => x.id == id
        · rfl
        · rfl
      · rfl
    · intro c hc
      rw [hch] at hc
      simp only [List.mem_filter, decide_eq_true_eq] at hc
      exact hc.2
    · intro it hit
      simp [removePreview, hok, hit]
    · intro h1 it hit
      simp [removePreview, hok, h1, hit]
    · intro h1 h2
      simp [removePreview, hok, h1, h2]

/-- Record, state and databases for the C5 witness. -/
def c5Rec : PreviewFile :=
  { id := 1, fileName := "f.png", size := 3, url := some "u5", objectUrl := some "u5",
    loading := false, progress := 100, totalChunks := some 1 }

def c5State : CompState := { images := [c5Rec], videos := [], idCounter := 1 }

def c5DBIndexed : IDB :=
  { hasFileIdIndex := true,
    chunks := [{ fileId := 1, chunkIndex := 0, totalChunks := 1, data := [1, 2, 3] }] }

/-- C5 witness: against the schema `openDB` creates the cleanup rejects and
the record stays; against a database that does carry the index, cleanup,
revocation and removal all happen, in that order. -/
theorem c5_remove_order_and_failure_witness :
    (clearChunksByFileId 1 openedDB = Except.error StorageErr.notFound ∧
     (removePreview 1 c5State openedDB).resolved = false ∧
     (removePreview 1 c5State openedDB).st = c5State) ∧
    (clearChunksByFileId 1 c5DBIndexed
        = Except.ok { hasFileIdIndex := true, chunks := [] } ∧
     c5State.images.find? (fun x => x.id == 1) = some c5Rec ∧
     ((removePreview 1 c5State c5DBIndexed).st.images
          = c5State.images.filter (fun x => x.id != 1) ∧
      (removePreview 1 c5State c5DBIndexed).st.videos = c5State.videos ∧
      (removePreview 1 c5State c5DBIndexed).revoked
          = (match c5Rec.objectUrl with | some u => [u] | none => []) ∧
      (removePreview 1 c5State c5DBIndexed).actions
          = RAct.clearChunks 1 true ::
              ((removePreview 1 c5State c5DBIndexed).revoked.map RAct.revokeUrl
                ++ [RAct.removeRecord 1]))) :=
  ⟨⟨rfl,
    ((c5_remove_order_and_failure 1 c5State openedDB).1 StorageErr.notFound rfl).1,
    ((c5_remove_order_and_failure 1 c5State openedDB).1 StorageErr.notFound rfl).2.1⟩,
   ⟨rfl, rfl,
    (((c5_remove_order_and_failure 1 c5State c5DBIndexed).2
        { hasFileIdIndex := true, chunks := [] } rfl).2.2.2.1 c5Rec rfl)⟩⟩

/-- Records, state and database the C8 evaluation runs on. -/
def c8ImageRec : PreviewFile :=
  { id := 1, fileName := "a.png", size := 3, url := some "ua", objectUrl := some "ua",
    loading := false, progress := 100, totalChunks := some 1 }

def c8VideoRec : PreviewFile :=
  { id := 2, fileName := "b.mp4", size := 3, url := some "ub", objectUrl := some "ub",
    loading := false, progress := 100, totalChunks := some 1 }

def c8State : CompState := { images := [c8ImageRec], videos := [c8VideoRec], idCounter := 2 }

def c8DB : IDB :=
  { hasFileIdIndex := false,
    chunks := [{ fileId := 1, chunkIndex := 0, totalChunks := 1, data := [1, 2, 3] }] }

/-- C8 (code bug): on the schema `openDB` creates, `removeAll` over the image
partition does empty that partition and leaves the video partition
untouched, but the per-record cleanup the claim promises does not happen:
`clearChunksByFileId` rejects (no `fileId` index exists), the await inside
the per-item closure throws before `URL.revokeObjectURL`, so the removed
file's chunks stay in the store and no preview handle is revoked. -/
theorem c8_removeAll_skips_cleanup :
    (removeAll MediaType.image c8State c8DB).1.images = [] ∧
    (removeAll MediaType.image c8State c8DB).1.videos = [c8VideoRec] ∧
    (removeAll MediaType.image c8State c8DB).2.1 = c8DB ∧
    (removeAll MediaType.image c8State c8DB).2.2 = [] :=
  ⟨rfl, rfl, rfl, rfl⟩

/-- C9: `uploadAll` writes one manifest entry per record currently in the
partition — id, name, size, totalChunks and the timestamp — under the
partition's storage key; a record whose stored-chunk count differs from its
`totalChunks` only produces a warning, the operation still completing
successfully; and on an empty partition it returns immediately without
writing anything. -/
theorem c9_uploadAll_manifest (ty : MediaType) (now : ℕ) (st : CompState) (db : IDB) :
    (uploadAll ty now st db).ok = true ∧
    (st.partition ty = [] →
      (uploadAll ty now st db).wrote = none ∧
      (uploadAll ty now st db).warnings = []) ∧
    (st.partition ty ≠ [] →
      (uploadAll ty now st db).wrote
        = some (storageKey ty, (st.partition ty).map fun f =>
            { id := f.id, name := f.fileName, size := f.size,
              totalChunks := f.totalChunks.getD 0, uploadedAt := now })) ∧
    (∀ f ∈ st.partition ty,
      (db.chunks.filter fun c => c.fileId == f.id).length ≠ f.totalChunks.getD 0 →
      f.fileName ∈ (uploadAll ty now st db).warnings) := by
  rcases hpart : st.partition ty with _ | ⟨a, l⟩
  · refine ⟨?_, fun _ => ⟨?_, ?_⟩, fun hne => absurd rfl hne, fun f hf _ => absurd hf (by simp)⟩
    · simp [uploadAll, hpart]
    · simp [uploadAll, hpart]
    · simp [uploadAll, hpart]
  · refine ⟨?_, fun hz => absurd hz (by simp), fun _ => ?_, fun f hf hmis => ?_⟩
    · simp [uploadAll, hpart]
    · simp [uploadAll, hpart]
    · have : (uploadAll ty now st db).warnings
          = ((a :: l).filter fun f =>
              (db.chunks.filter fun c => c.fileId == f.id).length
                != f.totalChunks.getD 0).map fun f => f.fileName := by
        simp [uploadAll, hpart]
      rw [this]
      refine List.mem_map.mpr ⟨f, ?_, rfl⟩
      rw [List.mem_filter]
      refine ⟨hf, ?_⟩
      simpa using hmis

/-- Record and state for the C9 witness. -/
def c9Rec : PreviewFile :=
  { id := 7, fileName := "g.png", size := 5, url := some "u9", objectUrl := some "u9",
    loading := false, progress := 100, totalChunks := some 1 }

def c9State : CompState := { images := [c9Rec], videos := [], idCounter := 7 }

/-- C9 witness: one image record whose chunks are missing from the store —
the export still succeeds, writes the one-entry manifest, and warns about
the record. -/
theorem c9_uploadAll_manifest_witness :
    (c9State.partition MediaType.image ≠ [] ∧
     c9Rec ∈ c9State.partition MediaType.image ∧
     (openedDB.chunks.filter fun c => c.fileId == c9Rec.id).length
        ≠ c9Rec.totalChunks.getD 0) ∧
    ((uploadAll MediaType.image 123 c9State openedDB).ok = true ∧
     (uploadAll MediaType.image 123 c9State openedDB).wrote
        = some (storageKey MediaType.image,
            (c9State.partition MediaType.image).map fun f =>
              { id := f.id, name := f.fileName, size := f.size,
                totalChunks := f.totalChunks.getD 0, uploadedAt := 123 }) ∧
     c9Rec.fileName ∈ (uploadAll MediaType.image 123 c9State openedDB).warnings) :=
  ⟨⟨by decide, by decide, by decide⟩,
   ⟨(c9_uploadAll_manifest MediaType.image 123 c9State openedDB).1,
    (c9_uploadAll_manifest MediaType.image 123 c9State openedDB).2.2.1 (by decide),
    (c9_uploadAll_manifest MediaType.image 123 c9State openedDB).2.2.2 c9Rec
      (by decide) (by decide)⟩⟩
